/-
Verification of the connection-lifecycle instrumentation suite:
a load generator (latency statistics, percentiles), a slow-connection
simulator (header drip state machine), and a connection-state tracker.

The definitions below are shallow embeddings of the corresponding Go
functions. Machine integers (int64) are modelled as Int where counters
may be decremented, and as Nat where they are only ever incremented;
the Go map keyed by connection handle is modelled as a function from an
abstract connection identity (Nat) to an optional state.
-/
import Mathlib

set_option maxHeartbeats 1000000

/-! ## Connection state tracker (internal/metrics/connstate.go) -/

/-- The five lifecycle states of `http.ConnState`. -/
inductive GoConnState where
  | snew
  | active
  | idle
  | hijacked
  | closed
deriving DecidableEq, Repr

/-- `ConnStateCounter` from connstate.go: per-state live counters, cumulative
accepted/closed counters, and the per-connection last-known-state map. -/
structure ConnStateCounter where
  stateNew : Int
  stateActive : Int
  stateIdle : Int
  stateHijacked : Int
  totalAccepted : Int
  totalClosed : Int
  connStates : Nat → Option GoConnState

/-- `NewConnStateCounter`: all counters zero, empty map. -/
def initCounter : ConnStateCounter :=
  { stateNew := 0, stateActive := 0, stateIdle := 0, stateHijacked := 0,
    totalAccepted := 0, totalClosed := 0, connStates := fun _ => none }

/-- `decrementState`: decrease the live counter of the given state
(no counter for `closed`). -/
def decrementState (c : ConnStateCounter) (state : GoConnState) : ConnStateCounter :=
  match state with
  | .snew => { c with stateNew := c.stateNew - 1 }
  | .active => { c with stateActive := c.stateActive - 1 }
  | .idle => { c with stateIdle := c.stateIdle - 1 }
  | .hijacked => { c with stateHijacked := c.stateHijacked - 1 }
  | .closed => c

/-- `TrackConnState`: look up the previous state of `conn`; if tracked,
decrement its counter; then branch on the new state, incrementing the new
state's counter (and `totalAccepted` on `StateNew`), or on `StateClosed`
deleting the entry and incrementing `totalClosed`. -/
def trackConnState (c : ConnStateCounter) (conn : Nat) (state : GoConnState) :
    ConnStateCounter :=
  let c1 :=
    match c.connStates conn with
    | some prev => decrementState c prev
    | none => c
  match state with
  | .snew =>
      { c1 with
        stateNew := c1.stateNew + 1
        totalAccepted := c1.totalAccepted + 1
        connStates := fun x => if x = conn then some .snew else c1.connStates x }
  | .active =>
      { c1 with
        stateActive := c1.stateActive + 1
        connStates := fun x => if x = conn then some .active else c1.connStates x }
  | .idle =>
      { c1 with
        stateIdle := c1.stateIdle + 1
        connStates := fun x => if x = conn then some .idle else c1.connStates x }
  | .hijacked =>
      { c1 with
        stateHijacked := c1.stateHijacked + 1
        connStates := fun x => if x = conn then some .hijacked else c1.connStates x }
  | .closed =>
      { c1 with
        totalClosed := c1.totalClosed + 1
        connStates := fun x => if x = conn then none else c1.connStates x }

/-- Run a sequence of `TrackConnState` calls from a starting counter. -/
def runConnSeq (c : ConnStateCounter) : List (Nat × GoConnState) → ConnStateCounter
  | [] => c
  | ev :: rest => runConnSeq (trackConnState c ev.1 ev.2) rest

/-- Sum of the live per-state counters (New + Active + Idle + Hijacked). -/
def liveSum (c : ConnStateCounter) : Int :=
  c.stateNew + c.stateActive + c.stateIdle + c.stateHijacked

/-- An event is valid w.r.t. the `http.Server` ConnState contract in the
current tracker state: `StateNew` fires only for an untracked connection,
and every other transition only for a tracked one. -/
def ValidEvent (c : ConnStateCounter) (ev : Nat × GoConnState) : Prop :=
  match ev.2 with
  | .snew => c.connStates ev.1 = none
  | _ => (c.connStates ev.1).isSome

/-- A whole call sequence is valid when each event is valid in the state
reached just before it. -/
def ValidSeq (c : ConnStateCounter) : List (Nat × GoConnState) → Prop
  | [] => True
  | ev :: rest => ValidEvent c ev ∧ ValidSeq (trackConnState c ev.1 ev.2) rest

/-- The tracker map never stores `closed` (entries are deleted on close). -/
def NoClosedStored (c : ConnStateCounter) : Prop :=
  ∀ k, c.connStates k ≠ some .closed

/-- The last state reported for identity `conn` in a call sequence, if any. -/
def lastStateOf (evs : List (Nat × GoConnState)) (conn : Nat) : Option GoConnState :=
  ((evs.filter (fun e => e.1 == conn)).getLast?).map Prod.snd

/-! ### Tracker helper lemmas -/

lemma decrementState_connStates (c : ConnStateCounter) (st : GoConnState) :
    (decrementState c st).connStates = c.connStates := by
  cases st <;> rfl

lemma decrementState_totalAccepted (c : ConnStateCounter) (st : GoConnState) :
    (decrementState c st).totalAccepted = c.totalAccepted := by
  cases st <;> rfl

lemma decrementState_totalClosed (c : ConnStateCounter) (st : GoConnState) :
    (decrementState c st).totalClosed = c.totalClosed := by
  cases st <;> rfl

lemma decrementState_liveSum (c : ConnStateCounter) (st : GoConnState)
    (h : st ≠ GoConnState.closed) :
    liveSum (decrementState c st) = liveSum c - 1 := by
  cases st with
  | snew => simp only [decrementState, liveSum]; omega
  | active => simp only [decrementState, liveSum]; omega
  | idle => simp only [decrementState, liveSum]; omega
  | hijacked => simp only [decrementState, liveSum]; omega
  | closed => exact absurd rfl h

/-- The tracker map after a transition: the transitioned identity now maps to
the new state (or to nothing, on `closed`); every other identity is
untouched. -/
lemma trackConnState_connStates_eq (c : ConnStateCounter) (conn : Nat)
    (st : GoConnState) :
    (trackConnState c conn st).connStates = fun x =>
      if x = conn then (if st = GoConnState.closed then none else some st)
      else c.connStates x := by
  cases hc : c.connStates conn <;>
    cases st <;>
      simp [trackConnState, hc, decrementState_connStates]

lemma trackConnState_connStates_other (c : ConnStateCounter) (conn conn' : Nat)
    (st : GoConnState) (h : conn' ≠ conn) :
    (trackConnState c conn st).connStates conn' = c.connStates conn' := by
  rw [trackConnState_connStates_eq]
  simp [h]

lemma trackConnState_closed_lookup (c : ConnStateCounter) (conn : Nat) :
    (trackConnState c conn GoConnState.closed).connStates conn = none := by
  rw [trackConnState_connStates_eq]
  simp

/-- One valid transition preserves both tracker invariants: the map never
stores `closed`, and the live-count sum equals accepted minus closed. -/
lemma trackConnState_step_invariant (c : ConnStateCounter) (ev : Nat × GoConnState)
    (hval : ValidEvent c ev) (hnc : NoClosedStored c)
    (hinv : liveSum c = c.totalAccepted - c.totalClosed) :
    NoClosedStored (trackConnState c ev.1 ev.2) ∧
      liveSum (trackConnState c ev.1 ev.2) =
        (trackConnState c ev.1 ev.2).totalAccepted -
          (trackConnState c ev.1 ev.2).totalClosed := by
  obtain ⟨conn, st⟩ := ev
  have hmap : NoClosedStored (trackConnState c conn st) := by
    intro k
    rw [trackConnState_connStates_eq]
    by_cases hkc : k = conn
    · cases st <;> simp [hkc]
    · simp [hkc]; exact hnc k
  refine ⟨hmap, ?_⟩
  cases st
  case snew =>
    have hc : c.connStates conn = none := hval
    simp only [trackConnState, hc, liveSum] at hinv ⊢
    omega
  all_goals {
    have hs : (c.connStates conn).isSome := hval
    cases hc : c.connStates conn with
    | none => rw [hc] at hs; simp at hs
    | some prev =>
      have hprev : prev ≠ GoConnState.closed := by
        intro hp; exact hnc conn (hp ▸ hc)
      have hd := decrementState_liveSum c prev hprev
      have ha := decrementState_totalAccepted c prev
      have hcl := decrementState_totalClosed c prev
      simp only [liveSum] at hd hinv ⊢
      simp only [trackConnState, hc]
      simp only [decrementState_totalAccepted, decrementState_totalClosed] at ha hcl ⊢
      omega
  }

lemma runConnSeq_append (c : ConnStateCounter) (l1 l2 : List (Nat × GoConnState)) :
    runConnSeq c (l1 ++ l2) = runConnSeq (runConnSeq c l1) l2 := by
  induction l1 generalizing c with
  | nil => rfl
  | cons ev rest ih => simp [runConnSeq, ih]

lemma validSeq_append_left (c : ConnStateCounter) (l1 l2 : List (Nat × GoConnState))
    (h : ValidSeq c (l1 ++ l2)) : ValidSeq c l1 := by
  induction l1 generalizing c with
  | nil => trivial
  | cons ev rest ih =>
    obtain ⟨h1, h2⟩ := h
    exact ⟨h1, ih _ h2⟩

/-- The two tracker invariants hold after any valid call sequence. -/
lemma runConnSeq_invariant (c : ConnStateCounter) (evs : List (Nat × GoConnState))
    (hv : ValidSeq c evs) (hnc : NoClosedStored c)
    (hinv : liveSum c = c.totalAccepted - c.totalClosed) :
    NoClosedStored (runConnSeq c evs) ∧
      liveSum (runConnSeq c evs) =
        (runConnSeq c evs).totalAccepted - (runConnSeq c evs).totalClosed := by
  induction evs generalizing c with
  | nil => exact ⟨hnc, hinv⟩
  | cons ev rest ih =>
    obtain ⟨h1, h2⟩ := hv
    obtain ⟨hnc', hinv'⟩ := trackConnState_step_invariant c ev h1 hnc hinv
    exact ih _ h2 hnc' hinv'

/-- An identity whose last reported transition is `closed` is absent from the
map, for every call sequence (valid or not). -/
lemma lastStateOf_closed_absent (c : ConnStateCounter) (evs : List (Nat × GoConnState))
    (conn : Nat) (h : lastStateOf evs conn = some GoConnState.closed) :
    (runConnSeq c evs).connStates conn = none := by
  induction evs using List.reverseRecOn generalizing c with
  | nil => simp [lastStateOf] at h
  | append_singleton l e ih =>
    rw [runConnSeq_append]
    by_cases hec : e.1 = conn
    · have hfilter : (l ++ [e]).filter (fun x => x.1 == conn) =
          l.filter (fun x => x.1 == conn) ++ [e] := by
        simp [List.filter_append, hec]
      rw [lastStateOf, hfilter, List.getLast?_concat] at h
      simp at h
      have : runConnSeq (runConnSeq c l) [e] =
          trackConnState (runConnSeq c l) e.1 e.2 := rfl
      rw [this, h, hec]
      exact trackConnState_closed_lookup _ _
    · have hfilter : (l ++ [e]).filter (fun x => x.1 == conn) =
          l.filter (fun x => x.1 == conn) := by
        simp [List.filter_append, hec]
      rw [lastStateOf, hfilter] at h
      have : runConnSeq (runConnSeq c l) [e] =
          trackConnState (runConnSeq c l) e.1 e.2 := rfl
      rw [this, trackConnState_connStates_other _ _ _ _ (fun hh => hec hh.symm)]
      exact ih _ h

/-- C1 as literally stated is false: the sum invariant does not hold for
every call sequence. A single `Active` transition for a connection that was
never accepted yields live sum 1 but `totalAccepted - totalClosed = 0`. -/
theorem c1_arbitrary_seq_counterexample :
    liveSum (runConnSeq initCounter [(0, GoConnState.active)]) = 1 ∧
    (runConnSeq initCounter [(0, GoConnState.active)]).totalAccepted -
      (runConnSeq initCounter [(0, GoConnState.active)]).totalClosed = 0 := by
  constructor <;> rfl

/-- C1 (amended): for every call sequence that respects the `http.Server`
ConnState contract (`New` only for untracked identities, all other
transitions only for tracked ones), after every transition (i.e. after every
prefix of the sequence) the sum of the live per-state counts equals
`totalAccepted - totalClosed`; and for every call sequence whatsoever,
contract-respecting or not, an identity whose last transition was `Closed`
is absent from the live mapping. -/
theorem c1_tracker_invariant (evs : List (Nat × GoConnState)) :
    (ValidSeq initCounter evs →
      ∀ l1 l2 : List (Nat × GoConnState), evs = l1 ++ l2 →
        liveSum (runConnSeq initCounter l1) =
          (runConnSeq initCounter l1).totalAccepted -
            (runConnSeq initCounter l1).totalClosed) ∧
    (∀ conn : Nat, lastStateOf evs conn = some GoConnState.closed →
        (runConnSeq initCounter evs).connStates conn = none) := by
  constructor
  · intro hv l1 l2 hsplit
    have hv1 : ValidSeq initCounter l1 := validSeq_append_left _ _ _ (hsplit ▸ hv)
    have hnc : NoClosedStored initCounter := by intro k; simp [initCounter]
    have hinv : liveSum initCounter =
        initCounter.totalAccepted - initCounter.totalClosed := rfl
    exact (runConnSeq_invariant initCounter l1 hv1 hnc hinv).2
  · intro conn h
    exact lastStateOf_closed_absent initCounter evs conn h

/-- Witness: C1's amended invariant evaluated on the concrete valid sequence
New → Active → Closed for identity 0. -/
theorem c1_tracker_invariant_witness :
    liveSum (runConnSeq initCounter
        [(0, GoConnState.snew), (0, GoConnState.active), (0, GoConnState.closed)]) =
      (runConnSeq initCounter
        [(0, GoConnState.snew), (0, GoConnState.active), (0, GoConnState.closed)]).totalAccepted -
      (runConnSeq initCounter
        [(0, GoConnState.snew), (0, GoConnState.active), (0, GoConnState.closed)]).totalClosed ∧
    (runConnSeq initCounter
        [(0, GoConnState.snew), (0, GoConnState.active), (0, GoConnState.closed)]).connStates 0 =
      none := by
  have hv : ValidSeq initCounter
      [(0, GoConnState.snew), (0, GoConnState.active), (0, GoConnState.closed)] :=
    ⟨rfl, rfl, rfl, trivial⟩
  have h := c1_tracker_invariant
    [(0, GoConnState.snew), (0, GoConnState.active), (0, GoConnState.closed)]
  refine ⟨h.1 hv _ [] (by simp), h.2 0 ?_⟩
  rfl

/-- C2 as stated is false on the code: `TrackConnState` increments
`totalAccepted` on every `New` transition, even when the identity is already
present in the tracking map. Concretely: after New(0), identity 0 is
tracked, yet a second New(0) raises `totalAccepted` from 1 to 2. -/
theorem c2_new_tracked_counterexample :
    ((trackConnState initCounter 0 GoConnState.snew).connStates 0).isSome = true ∧
    (trackConnState initCounter 0 GoConnState.snew).totalAccepted = 1 ∧
    (trackConnState (trackConnState initCounter 0 GoConnState.snew) 0
        GoConnState.snew).totalAccepted = 2 := by
  refine ⟨rfl, rfl, rfl⟩

/-- C2 (amended): `TrackConnState` increments `totalAccepted` by exactly one
on every `New` transition, whether or not the identity is already tracked;
under the ConnState contract, where `New` fires only for untracked
identities, this coincides with incrementing only on the very first `New`
observation per connection. -/
theorem c2_new_increments_accepted (c : ConnStateCounter) (conn : Nat) :
    (trackConnState c conn GoConnState.snew).totalAccepted = c.totalAccepted + 1 := by
  cases hc : c.connStates conn with
  | none => simp [trackConnState, hc]
  | some prev => simp [trackConnState, hc, decrementState_totalAccepted]

/-! ## Load generator (cmd/loadgen/main.go) -/

/-- What one HTTP attempt produced, as seen by `doRequest`. -/
inductive ReqResult where
  | transportError
  | httpResp (status : Nat)
deriving DecidableEq, Repr

/-- `doRequest` returns an error for transport failures and for any HTTP
status ≥ 400; everything else is success. -/
def doRequestIsError : ReqResult → Bool
  | .transportError => true
  | .httpResp status => decide (400 ≤ status)

/-- The loadgen `Stats` structure (counter fields only grow, so Nat). -/
structure LGStats where
  totalRequests : Nat
  successCount : Nat
  errorCount : Nat
  totalLatencyNs : Nat
  latencies : List Nat
deriving DecidableEq, Repr

def initLGStats : LGStats := ⟨0, 0, 0, 0, []⟩

/-- One iteration of `worker`: bump `totalRequests` and the latency
accumulator, then on error bump `errorCount`, on success bump
`successCount` and append the latency sample. -/
def workerStep (st : LGStats) (att : ReqResult × Nat) : LGStats :=
  let st1 := { st with
    totalRequests := st.totalRequests + 1
    totalLatencyNs := st.totalLatencyNs + att.2 }
  if doRequestIsError att.1 then
    { st1 with errorCount := st1.errorCount + 1 }
  else
    { st1 with
      successCount := st1.successCount + 1
      latencies := st1.latencies ++ [att.2] }

/-- A worker processing a whole list of attempts. -/
def runWorker (st : LGStats) (atts : List (ReqResult × Nat)) : LGStats :=
  atts.foldl workerStep st

/-- `percentile` from loadgen: nearest-rank index into an (assumed sorted)
sample list, 0 for an empty list; `(n-1)*p/100` is Go integer division,
i.e. floor. -/
def percentile (sorted : List Nat) (p : Nat) : Nat :=
  if sorted.length = 0 then 0
  else sorted.getD ((sorted.length - 1) * p / 100) 0

structure LatencyReport where
  avgLatency : Nat
  p50 : Nat
  p95 : Nat
  p99 : Nat
deriving DecidableEq, Repr

/-- The latency-statistics part of `printResults`: with no samples all four
figures stay 0; otherwise sort ascending, average = sum / count (integer
division, as in Go), and nearest-rank P50/P95/P99 over the sorted copy. -/
def makeReport (lats : List Nat) : LatencyReport :=
  if lats.length = 0 then ⟨0, 0, 0, 0⟩
  else
    let sorted := lats.insertionSort (· ≤ ·)
    { avgLatency := sorted.sum / lats.length
      p50 := percentile sorted 50
      p95 := percentile sorted 95
      p99 := percentile sorted 99 }

/-- Largest element of a sample list (0 when empty). -/
def sampleMax : List Nat → Nat
  | [] => 0
  | x :: xs => max x (sampleMax xs)

/-- Smallest element of a sample list (0 when empty). -/
def sampleMin : List Nat → Nat
  | [] => 0
  | [x] => x
  | x :: y :: rest => min x (sampleMin (y :: rest))

lemma mem_le_sampleMax (l : List Nat) : ∀ x ∈ l, x ≤ sampleMax l := by
  induction l with
  | nil => intro x hx; cases hx
  | cons a as ih =>
    intro x hx
    rcases List.mem_cons.mp hx with rfl | hmem
    · exact le_max_left _ _
    · exact le_trans (ih x hmem) (le_max_right _ _)

lemma sampleMin_le_mem (l : List Nat) : ∀ x ∈ l, sampleMin l ≤ x := by
  induction l with
  | nil => intro x hx; cases hx
  | cons a as ih =>
    intro x hx
    cases as with
    | nil =>
      rcases List.mem_cons.mp hx with rfl | hmem
      · exact le_refl _
      · cases hmem
    | cons b bs =>
      rcases List.mem_cons.mp hx with rfl | hmem
      · exact min_le_left _ _
      · exact le_trans (min_le_right _ _) (ih x hmem)

/-- Each worker iteration adds 1 to `totalRequests` and 1 to exactly one of
`successCount` / `errorCount`. -/
lemma workerStep_counts (st : LGStats) (att : ReqResult × Nat) :
    (workerStep st att).totalRequests = st.totalRequests + 1 ∧
    (workerStep st att).successCount + (workerStep st att).errorCount =
      st.successCount + st.errorCount + 1 := by
  constructor
  · by_cases h : doRequestIsError att.1 = true <;> simp [workerStep, h]
  · by_cases h : doRequestIsError att.1 = true <;> simp [workerStep, h] <;> omega

lemma runWorker_counts (st : LGStats) (atts : List (ReqResult × Nat))
    (h : st.totalRequests = st.successCount + st.errorCount) :
    (runWorker st atts).totalRequests =
      (runWorker st atts).successCount + (runWorker st atts).errorCount := by
  induction atts generalizing st with
  | nil => exact h
  | cons att rest ih =>
    have hs := workerStep_counts st att
    exact ih (workerStep st att) (by omega)

/-- C8: after any number of completed worker iterations starting from the
zeroed stats, `totalRequests = successCount + errorCount` (the quiescent
counter invariant of the load generator). -/
theorem c8_total_eq_success_plus_error (atts : List (ReqResult × Nat)) :
    (runWorker initLGStats atts).totalRequests =
      (runWorker initLGStats atts).successCount +
        (runWorker initLGStats atts).errorCount :=
  runWorker_counts initLGStats atts rfl

lemma workerStep_error_fields (st : LGStats) (att : ReqResult × Nat)
    (h : doRequestIsError att.1 = true) :
    (workerStep st att).errorCount = st.errorCount + 1 ∧
    (workerStep st att).totalRequests = st.totalRequests + 1 ∧
    (workerStep st att).successCount = st.successCount ∧
    (workerStep st att).latencies = st.latencies := by
  simp [workerStep, h]

/-- A run in which every attempt is classified as an error touches only
`totalRequests`, `totalLatencyNs` and `errorCount`. -/
lemma runWorker_all_error (st : LGStats) (atts : List (ReqResult × Nat))
    (h : ∀ a ∈ atts, doRequestIsError a.1 = true) :
    (runWorker st atts).errorCount = st.errorCount + atts.length ∧
    (runWorker st atts).totalRequests = st.totalRequests + atts.length ∧
    (runWorker st atts).successCount = st.successCount ∧
    (runWorker st atts).latencies = st.latencies := by
  induction atts generalizing st with
  | nil => simp [runWorker]
  | cons att rest ih =>
    have hatt : doRequestIsError att.1 = true := h att (List.mem_cons_self att rest)
    have hrest : ∀ a ∈ rest, doRequestIsError a.1 = true :=
      fun a ha => h a (List.mem_cons_of_mem att ha)
    have hstep : runWorker st (att :: rest) = runWorker (workerStep st att) rest := rfl
    obtain ⟨e1, e2, e3, e4⟩ := workerStep_error_fields st att hatt
    obtain ⟨h1, h2, h3, h4⟩ := ih (workerStep st att) hrest
    rw [hstep]
    refine ⟨?_, ?_, ?_, ?_⟩
    · rw [h1, e1]; simp only [List.length_cons]; omega
    · rw [h2, e2]; simp only [List.length_cons]; omega
    · rw [h3, e3]
    · rw [h4, e4]

/-- C6: if every attempt yields HTTP status 500 then, once the workers have
stopped, `errorCount = totalRequests`, `successCount = 0`, the latency
sample list is empty, and the reported average and percentiles are all 0. -/
theorem c6_all_500_outcome (atts : List (ReqResult × Nat))
    (h : ∀ a ∈ atts, a.1 = ReqResult.httpResp 500) :
    (runWorker initLGStats atts).errorCount = (runWorker initLGStats atts).totalRequests ∧
    (runWorker initLGStats atts).successCount = 0 ∧
    (runWorker initLGStats atts).latencies = [] ∧
    makeReport (runWorker initLGStats atts).latencies = ⟨0, 0, 0, 0⟩ := by
  have herr : ∀ a ∈ atts, doRequestIsError a.1 = true := by
    intro a ha
    rw [h a ha]
    rfl
  obtain ⟨h1, h2, h3, h4⟩ := runWorker_all_error initLGStats atts herr
  refine ⟨by rw [h1, h2]; rfl, by rw [h3]; rfl, by rw [h4]; rfl, ?_⟩
  rw [h4]
  rfl

/-- Witness: C6 evaluated on two concrete HTTP-500 attempts. -/
theorem c6_all_500_outcome_witness :
    (runWorker initLGStats [(ReqResult.httpResp 500, 7), (ReqResult.httpResp 500, 3)]).errorCount =
      (runWorker initLGStats [(ReqResult.httpResp 500, 7), (ReqResult.httpResp 500, 3)]).totalRequests ∧
    (runWorker initLGStats [(ReqResult.httpResp 500, 7), (ReqResult.httpResp 500, 3)]).successCount = 0 ∧
    (runWorker initLGStats [(ReqResult.httpResp 500, 7), (ReqResult.httpResp 500, 3)]).latencies = [] ∧
    makeReport (runWorker initLGStats
        [(ReqResult.httpResp 500, 7), (ReqResult.httpResp 500, 3)]).latencies = ⟨0, 0, 0, 0⟩ :=
  c6_all_500_outcome [(ReqResult.httpResp 500, 7), (ReqResult.httpResp 500, 3)] (by decide)

/-- C3: the percentile computation is the nearest-rank method: an empty
sample set yields 0; a non-empty sample list is sorted ascending and the
element at index `floor((n-1)*p/100)` of the sorted copy is returned; in
particular for the samples [1,...,10], P50 = 5, P95 = 9 and P99 = 9. -/
theorem c3_percentile_nearest_rank :
    (∀ p, percentile [] p = 0) ∧
    (∀ lats : List Nat, lats ≠ [] → ∀ p,
        List.Sorted (· ≤ ·) (lats.insertionSort (· ≤ ·)) ∧
        (lats.insertionSort (· ≤ ·)).Perm lats ∧
        percentile (lats.insertionSort (· ≤ ·)) p =
          (lats.insertionSort (· ≤ ·)).getD ((lats.length - 1) * p / 100) 0) ∧
    (makeReport [1, 2, 3, 4, 5, 6, 7, 8, 9, 10]).p50 = 5 ∧
    (makeReport [1, 2, 3, 4, 5, 6, 7, 8, 9, 10]).p95 = 9 ∧
    (makeReport [1, 2, 3, 4, 5, 6, 7, 8, 9, 10]).p99 = 9 := by
  refine ⟨fun p => rfl, fun lats hne p => ?_, by decide, by decide, by decide⟩
  have hperm : (lats.insertionSort (· ≤ ·)).Perm lats := List.perm_insertionSort _ lats
  have hlen : (lats.insertionSort (· ≤ ·)).length = lats.length := hperm.length_eq
  have hnz : lats.length ≠ 0 := fun h0 => hne (List.length_eq_zero.mp h0)
  refine ⟨List.sorted_insertionSort _ lats, hperm, ?_⟩
  rw [percentile, hlen]
  simp [hnz]

/-- Witness: C3's general statement applied to the unsorted two-element
sample [9, 4] at p = 50. -/
theorem c3_percentile_nearest_rank_witness :
    percentile ([9, 4].insertionSort (· ≤ ·)) 50 =
      ([9, 4].insertionSort (· ≤ ·)).getD ((([9, 4] : List Nat).length - 1) * 50 / 100) 0 :=
  ((c3_percentile_nearest_rank.2.1 [9, 4] (by decide) 50).2.2)

lemma sorted_getD_le_getD (s : List Nat) (hs : List.Sorted (· ≤ ·) s) (i j : Nat)
    (hij : i ≤ j) (hj : j < s.length) : s.getD i 0 ≤ s.getD j 0 := by
  have hi : i < s.length := lt_of_le_of_lt hij hj
  rw [List.getD_eq_getElem s 0 hi, List.getD_eq_getElem s 0 hj]
  have h := hs.rel_get_of_le (a := ⟨i, hi⟩) (b := ⟨j, hj⟩) (Fin.mk_le_mk.mpr hij)
  simpa [List.get_eq_getElem] using h

lemma makeReport_fields (lats : List Nat) (hnz : lats.length ≠ 0) :
    (makeReport lats).avgLatency = (lats.insertionSort (· ≤ ·)).sum / lats.length ∧
    (makeReport lats).p50 = percentile (lats.insertionSort (· ≤ ·)) 50 ∧
    (makeReport lats).p95 = percentile (lats.insertionSort (· ≤ ·)) 95 ∧
    (makeReport lats).p99 = percentile (lats.insertionSort (· ≤ ·)) 99 := by
  rw [makeReport]
  simp [hnz]

/-- C7: for every non-empty sample list the reported statistics satisfy
P50 ≤ P95 ≤ P99 ≤ max(sample) and min(sample) ≤ average ≤ max(sample). -/
theorem c7_report_order_stats (lats : List Nat) (hne : lats ≠ []) :
    (makeReport lats).p50 ≤ (makeReport lats).p95 ∧
    (makeReport lats).p95 ≤ (makeReport lats).p99 ∧
    (makeReport lats).p99 ≤ sampleMax lats ∧
    sampleMin lats ≤ (makeReport lats).avgLatency ∧
    (makeReport lats).avgLatency ≤ sampleMax lats := by
  have hnz : lats.length ≠ 0 := fun h0 => hne (List.length_eq_zero.mp h0)
  have hpos : 0 < lats.length := Nat.pos_of_ne_zero hnz
  obtain ⟨ha, h50, h95, h99⟩ := makeReport_fields lats hnz
  have hsorted := List.sorted_insertionSort (· ≤ ·) lats
  have hperm := List.perm_insertionSort (· ≤ ·) lats
  have hlen : (lats.insertionSort (· ≤ ·)).length = lats.length := hperm.length_eq
  have hslen : (lats.insertionSort (· ≤ ·)).length ≠ 0 := by rw [hlen]; exact hnz
  have hspos : 0 < (lats.insertionSort (· ≤ ·)).length := Nat.pos_of_ne_zero hslen
  have hperc : ∀ p, percentile (lats.insertionSort (· ≤ ·)) p =
      (lats.insertionSort (· ≤ ·)).getD
        (((lats.insertionSort (· ≤ ·)).length - 1) * p / 100) 0 := by
    intro p
    unfold percentile
    rw [if_neg hslen]
  have hidx : ∀ p q : Nat, p ≤ q →
      ((lats.insertionSort (· ≤ ·)).length - 1) * p / 100 ≤
        ((lats.insertionSort (· ≤ ·)).length - 1) * q / 100 :=
    fun p q hpq => Nat.div_le_div_right (Nat.mul_le_mul_left _ hpq)
  have hidx_lt : ∀ p : Nat, p ≤ 100 →
      ((lats.insertionSort (· ≤ ·)).length - 1) * p / 100 <
        (lats.insertionSort (· ≤ ·)).length := by
    intro p hp
    have h1 := hidx p 100 hp
    rw [Nat.mul_div_cancel _ (by norm_num : (0:Nat) < 100)] at h1
    omega
  have hmem_max : ∀ i : Nat, i < (lats.insertionSort (· ≤ ·)).length →
      (lats.insertionSort (· ≤ ·)).getD i 0 ≤ sampleMax lats := by
    intro i hi
    rw [List.getD_eq_getElem _ 0 hi]
    exact mem_le_sampleMax lats _ (hperm.mem_iff.mp (List.getElem_mem hi))
  have hsum_eq : (lats.insertionSort (· ≤ ·)).sum = lats.sum := hperm.sum_eq
  refine ⟨?_, ?_, ?_, ?_, ?_⟩
  · rw [h50, h95, hperc, hperc]
    exact sorted_getD_le_getD _ hsorted _ _ (hidx 50 95 (by norm_num))
      (hidx_lt 95 (by norm_num))
  · rw [h95, h99, hperc, hperc]
    exact sorted_getD_le_getD _ hsorted _ _ (hidx 95 99 (by norm_num))
      (hidx_lt 99 (by norm_num))
  · rw [h99, hperc]
    exact hmem_max _ (hidx_lt 99 (by norm_num))
  · rw [ha]
    have hlow : lats.length * sampleMin lats ≤ lats.sum := by
      have h := List.card_nsmul_le_sum lats (sampleMin lats) (sampleMin_le_mem lats)
      simpa [smul_eq_mul] using h
    rw [hsum_eq]
    exact (Nat.le_div_iff_mul_le hpos).mpr (by rw [Nat.mul_comm]; exact hlow)
  · rw [ha, hsum_eq]
    have hhigh : lats.sum ≤ lats.length * sampleMax lats := by
      have h := List.sum_le_card_nsmul lats (sampleMax lats) (mem_le_sampleMax lats)
      simpa [smul_eq_mul] using h
    calc lats.sum / lats.length ≤ lats.length * sampleMax lats / lats.length :=
          Nat.div_le_div_right hhigh
      _ = sampleMax lats := Nat.mul_div_cancel_left _ hpos

/-- Witness: C7 applied to the concrete sample list [4, 1, 7]. -/
theorem c7_report_order_stats_witness :
    (makeReport [4, 1, 7]).p50 ≤ (makeReport [4, 1, 7]).p95 ∧
    (makeReport [4, 1, 7]).p95 ≤ (makeReport [4, 1, 7]).p99 ∧
    (makeReport [4, 1, 7]).p99 ≤ sampleMax [4, 1, 7] ∧
    sampleMin [4, 1, 7] ≤ (makeReport [4, 1, 7]).avgLatency ∧
    (makeReport [4, 1, 7]).avgLatency ≤ sampleMax [4, 1, 7] :=
  c7_report_order_stats [4, 1, 7] (by decide)

/-! ## Slow-connection simulator (cmd/slowloris/main.go) -/

def crChar : Char := '\r'

def lfChar : Char := '\n'

/-- The CRLF line terminator. -/
def crlf : List Char := [crChar, lfChar]

/-- Decimal rendering of a natural number, one ASCII digit per position
(the characters produced by the %d verb). -/
def natChars (n : Nat) : List Char :=
  if n < 10 then [Char.ofNat (48 + n)]
  else natChars (n / 10) ++ [Char.ofNat (48 + n % 10)]
termination_by n
decreasing_by exact Nat.div_lt_self (by omega) (by omega)

/-- The request line `GET /?worker=<id> HTTP/1.1\r\n`. -/
def requestLine (id : Nat) : List Char :=
  "GET /?worker=".toList ++ natChars id ++ " HTTP/1.1".toList ++ crlf

/-- The `Host: <target>\r\n` header line. -/
def hostLine (target : List Char) : List Char :=
  "Host: ".toList ++ target ++ crlf

/-- The fixed `User-Agent` header line. -/
def uaLine : List Char :=
  "User-Agent: slowloris-go/1.0".toList ++ crlf

/-- The dripped custom header `X-Slowloris-<n>: <timestamp>\r\n`. -/
def xHeaderLine (n ts : Nat) : List Char :=
  "X-Slowloris-".toList ++ natChars n ++ ": ".toList ++ natChars ts ++ crlf

/-- What one tick of the header loop observes: cancellation during the
delay, a successful one-byte peek, a non-timeout peek error, or a
timeout-class peek error (in which case the subsequent header write either
succeeds or fails; `ts` is the timestamp written into the header). -/
inductive TickInput where
  | cancel
  | peekOk
  | peekOther
  | peekTimeout (writeOk : Bool) (ts : Nat)
deriving DecidableEq, Repr

/-- How a single connection's drip ended: the peer closed it (the function
returns true), it ended for another reason (returns false), or the trace
ran out while still looping. -/
inductive SLOutcome where
  | peerClosed
  | notPeerClosed
  | looping
deriving DecidableEq, Repr

structure SLConfig where
  target : List Char
  keepOpen : Bool

/-- Whether the three fixed leading writes succeed and whether the two
inter-line delays are interrupted by cancellation. -/
structure PreInputs where
  write1Ok : Bool
  cancel1 : Bool
  write2Ok : Bool
  cancel2 : Bool
  write3Ok : Bool
deriving DecidableEq, Repr

/-- The custom-header loop of `performSlowloris`, driven by a trace of tick
observations. Returns (number of header fragments counted, the fragments
actually sent, how the loop ended). Mirrors the Go loop: on a timeout-class
peek error the worker increments `headerNum`, writes one `X-Slowloris`
line, counts it, and — only when keep-open is disabled and ten custom
headers are out — voluntarily returns false. -/
def loopGo (cfg : SLConfig) (headerNum : Nat) :
    List TickInput → Nat × List (List Char) × SLOutcome
  | [] => (0, [], .looping)
  | .cancel :: _ => (0, [], .notPeerClosed)
  | .peekOk :: _ => (0, [], .notPeerClosed)
  | .peekOther :: _ => (0, [], .peerClosed)
  | .peekTimeout wok ts :: rest =>
      if !wok then (0, [], .peerClosed)
      else if !cfg.keepOpen && decide (10 ≤ headerNum + 1) then
        (1, [xHeaderLine (headerNum + 1) ts], .notPeerClosed)
      else
        let r := loopGo cfg (headerNum + 1) rest
        (r.1 + 1, xHeaderLine (headerNum + 1) ts :: r.2.1, r.2.2)

/-- `performSlowloris`: send the request line, the Host line and the
User-Agent line (a failed write returns true = peer closed; a cancellation
observed during a delay returns false), then enter the custom-header loop.
Returns (fragments counted, fragments sent, outcome). -/
def performSlowloris (cfg : SLConfig) (id : Nat) (pre : PreInputs)
    (ticks : List TickInput) : Nat × List (List Char) × SLOutcome :=
  if !pre.write1Ok then (0, [], .peerClosed)
  else if pre.cancel1 then (1, [requestLine id], .notPeerClosed)
  else if !pre.write2Ok then (1, [requestLine id], .peerClosed)
  else if pre.cancel2 then
    (2, [requestLine id, hostLine cfg.target], .notPeerClosed)
  else if !pre.write3Ok then
    (2, [requestLine id, hostLine cfg.target], .peerClosed)
  else
    let r := loopGo cfg 0 ticks
    (r.1 + 3, requestLine id :: hostLine cfg.target :: uaLine :: r.2.1, r.2.2)

/-- The slowloris `Stats` structure (int64 counters). -/
structure SLStats where
  activeConns : Int
  totalConns : Int
  closedByServer : Int
  errors : Int
  headersSent : Int
deriving DecidableEq, Repr

/-- One connection attempt of `slowlorisWorker` at quiescence: a failed
dial only bumps `errors`; a successful dial bumps `totalConns` and
`activeConns`, runs the drip, accumulates the sent-fragment count,
decrements `activeConns` on return, and bumps `closedByServer` exactly
when the drip reported a peer-initiated close. -/
def workerConnAttempt (st : SLStats) (cfg : SLConfig) (id : Nat) (dialOk : Bool)
    (pre : PreInputs) (ticks : List TickInput) : SLStats :=
  if !dialOk then { st with errors := st.errors + 1 }
  else
    let st1 := { st with
      totalConns := st.totalConns + 1
      activeConns := st.activeConns + 1 }
    let r := performSlowloris cfg id pre ticks
    let st2 := { st1 with
      headersSent := st1.headersSent + r.1
      activeConns := st1.activeConns - 1 }
    if r.2.2 = SLOutcome.peerClosed then
      { st2 with closedByServer := st2.closedByServer + 1 }
    else st2

/-! ### Byte-stream safety: the header terminator is never sent -/

/-- A well-formed header fragment: a non-empty body free of CR and LF,
terminated by exactly one CRLF. -/
def wellFormedLine (f : List Char) : Prop :=
  ∃ b, f = b ++ crlf ∧ b ≠ [] ∧ crChar ∉ b ∧ lfChar ∉ b

/-- Scans a character list for an LF immediately followed by a CR. -/
def hasLFCR : List Char → Bool
  | c1 :: c2 :: rest => (c1 == lfChar && c2 == crChar) || hasLFCR (c2 :: rest)
  | _ => false

lemma natChars_digits (n : Nat) :
    ∀ c ∈ natChars n, ∃ d, d < 10 ∧ c = Char.ofNat (48 + d) := by
  induction n using Nat.strong_induction_on with
  | _ n ih =>
    intro c hc
    rw [natChars] at hc
    by_cases h : n < 10
    · rw [if_pos h] at hc
      simp at hc
      exact ⟨n, h, hc⟩
    · rw [if_neg h] at hc
      rcases List.mem_append.mp hc with h1 | h2
      · exact ih (n / 10) (Nat.div_lt_self (by omega) (by omega)) c h1
      · simp at h2
        exact ⟨n % 10, Nat.mod_lt _ (by omega), h2⟩

lemma natChars_no_cr (n : Nat) : crChar ∉ natChars n := by
  intro hmem
  obtain ⟨d, hd, hc⟩ := natChars_digits n crChar hmem
  interval_cases d <;> exact absurd hc.symm (by decide)

lemma natChars_no_lf (n : Nat) : lfChar ∉ natChars n := by
  intro hmem
  obtain ⟨d, hd, hc⟩ := natChars_digits n lfChar hmem
  interval_cases d <;> exact absurd hc.symm (by decide)

lemma requestLine_wellFormed (id : Nat) : wellFormedLine (requestLine id) := by
  refine ⟨"GET /?worker=".toList ++ natChars id ++ " HTTP/1.1".toList, ?_, ?_, ?_, ?_⟩
  · simp [requestLine]
  · simp
  · intro h
    rcases List.mem_append.mp h with h1 | h2
    · rcases List.mem_append.mp h1 with h3 | h4
      · exact absurd h3 (by decide)
      · exact natChars_no_cr id h4
    · exact absurd h2 (by decide)
  · intro h
    rcases List.mem_append.mp h with h1 | h2
    · rcases List.mem_append.mp h1 with h3 | h4
      · exact absurd h3 (by decide)
      · exact natChars_no_lf id h4
    · exact absurd h2 (by decide)

lemma hostLine_wellFormed (target : List Char) (hcr : crChar ∉ target)
    (hlf : lfChar ∉ target) : wellFormedLine (hostLine target) := by
  refine ⟨"Host: ".toList ++ target, ?_, ?_, ?_, ?_⟩
  · simp [hostLine]
  · simp
  · intro h
    rcases List.mem_append.mp h with h1 | h2
    · exact absurd h1 (by decide)
    · exact hcr h2
  · intro h
    rcases List.mem_append.mp h with h1 | h2
    · exact absurd h1 (by decide)
    · exact hlf h2

lemma uaLine_wellFormed : wellFormedLine uaLine := by
  refine ⟨"User-Agent: slowloris-go/1.0".toList, ?_, ?_, ?_, ?_⟩
  · simp [uaLine]
  · simp
  · exact by decide
  · exact by decide

lemma xHeaderLine_wellFormed (n ts : Nat) : wellFormedLine (xHeaderLine n ts) := by
  refine ⟨"X-Slowloris-".toList ++ natChars n ++ ": ".toList ++ natChars ts, ?_, ?_, ?_, ?_⟩
  · simp [xHeaderLine]
  · simp
  · intro h
    rcases List.mem_append.mp h with h1 | h2
    · rcases List.mem_append.mp h1 with h3 | h4
      · rcases List.mem_append.mp h3 with h5 | h6
        · exact absurd h5 (by decide)
        · exact natChars_no_cr n h6
      · exact absurd h4 (by decide)
    · exact natChars_no_cr ts h2
  · intro h
    rcases List.mem_append.mp h with h1 | h2
    · rcases List.mem_append.mp h1 with h3 | h4
      · rcases List.mem_append.mp h3 with h5 | h6
        · exact absurd h5 (by decide)
        · exact natChars_no_lf n h6
      · exact absurd h4 (by decide)
    · exact natChars_no_lf ts h2

lemma hasLFCR_cons_of (a : Char) (l : List Char) (h : hasLFCR l = true) :
    hasLFCR (a :: l) = true := by
  cases l with
  | nil => simp [hasLFCR] at h
  | cons x r => simp [hasLFCR, h]

lemma no_lf_hasLFCR (l : List Char) (h : lfChar ∉ l) : hasLFCR l = false := by
  induction l with
  | nil => rfl
  | cons c1 rest ih =>
    cases rest with
    | nil => rfl
    | cons c2 r2 =>
      have h1 : c1 ≠ lfChar := fun he => h (he ▸ List.mem_cons_self c1 _)
      have h2 : lfChar ∉ c2 :: r2 := fun hm => h (List.mem_cons_of_mem c1 hm)
      simp [hasLFCR, h1, ih h2]

lemma hasLFCR_append (xs ys : List Char) (hx : hasLFCR xs = false)
    (hy : hasLFCR ys = false)
    (hb : ∀ a b, xs.getLast? = some a → ys.head? = some b →
        ¬(a = lfChar ∧ b = crChar)) :
    hasLFCR (xs ++ ys) = false := by
  induction xs with
  | nil => simpa using hy
  | cons x xs ih =>
    cases xs with
    | nil =>
      cases ys with
      | nil => rfl
      | cons y t =>
        have hxy : ¬(x = lfChar ∧ y = crChar) := hb x y rfl rfl
        simp only [List.singleton_append, hasLFCR]
        simp only [Bool.or_eq_false_iff]
        constructor
        · by_cases he1 : x = lfChar
          · by_cases he2 : y = crChar
            · exact absurd ⟨he1, he2⟩ hxy
            · simp [he2]
          · simp [he1]
        · exact hy
    | cons x2 rest =>
      have hx1 : (x == lfChar && x2 == crChar) = false := by
        simp only [hasLFCR, Bool.or_eq_false_iff] at hx
        exact hx.1
      have hx2 : hasLFCR (x2 :: rest) = false := by
        simp only [hasLFCR, Bool.or_eq_false_iff] at hx
        exact hx.2
      have hb2 : ∀ a b, (x2 :: rest).getLast? = some a → ys.head? = some b →
          ¬(a = lfChar ∧ b = crChar) := by
        intro a b hla hhb
        exact hb a b (by rw [List.getLast?_cons_cons]; exact hla) hhb
      have := ih hx2 hb2
      simp only [List.cons_append] at this ⊢
      simp only [hasLFCR, Bool.or_eq_false_iff]
      exact ⟨hx1, this⟩

lemma wellFormedLine_facts (f : List Char) (h : wellFormedLine f) :
    hasLFCR f = false ∧ f ≠ [] ∧ f.getLast? = some lfChar ∧
      ∀ b, f.head? = some b → b ≠ crChar := by
  obtain ⟨body, hf, hne, hcr, hlf⟩ := h
  have h1 : hasLFCR f = false := by
    rw [hf]
    apply hasLFCR_append
    · exact no_lf_hasLFCR body hlf
    · rfl
    · intro a b hla hhb hab
      obtain ⟨hbne, hx⟩ := List.mem_getLast?_eq_getLast (Option.mem_def.mpr hla)
      have ha : a ∈ body := hx ▸ List.getLast_mem hbne
      exact hlf (hab.1 ▸ ha)
  have h2 : f ≠ [] := by
    rw [hf]
    simp [crlf]
  have h3 : f.getLast? = some lfChar := by
    rw [hf]
    rw [List.getLast?_append_of_ne_nil body (show crlf ≠ [] by decide)]
    rfl
  refine ⟨h1, h2, h3, ?_⟩
  intro b hhb hbcr
  cases body with
  | nil => exact hne rfl
  | cons c rest =>
    simp only [hf, List.cons_append, List.head?_cons] at hhb
    have : c = b := by injection hhb
    exact hcr (by rw [this, hbcr]; exact List.mem_cons_self _ _)

/-- The concatenation of well-formed header fragments never contains an LF
immediately followed by a CR, and never starts with a CR. -/
lemma stream_safe (frags : List (List Char)) (h : ∀ f ∈ frags, wellFormedLine f) :
    hasLFCR frags.flatten = false ∧
      ∀ b, frags.flatten.head? = some b → b ≠ crChar := by
  induction frags with
  | nil => exact ⟨rfl, by intro b hb; simp at hb⟩
  | cons f fs ih =>
    obtain ⟨ih1, ih2⟩ := ih (fun g hg => h g (List.mem_cons_of_mem f hg))
    obtain ⟨hf1, hf2, hf3, hf4⟩ :=
      wellFormedLine_facts f (h f (List.mem_cons_self f fs))
    have hflat : (f :: fs).flatten = f ++ fs.flatten := rfl
    constructor
    · rw [hflat]
      apply hasLFCR_append f fs.flatten hf1 ih1
      intro a b hla hhb hab
      rw [hf3] at hla
      exact ih2 b hhb hab.2
    · intro b hb
      rw [hflat, List.head?_append_of_ne_nil f hf2] at hb
      exact hf4 b hb

lemma hasLFCR_of_mid_seq (l : List Char)
    (h : List.IsInfix [lfChar, crChar] l) : hasLFCR l = true := by
  obtain ⟨s, t, heq⟩ := h
  subst heq
  induction s with
  | nil => simp [hasLFCR]
  | cons a s ih =>
    have : a :: s ++ [lfChar, crChar] ++ t = a :: (s ++ [lfChar, crChar] ++ t) := by
      simp
    rw [this]
    apply hasLFCR_cons_of
    exact ih

lemma no_double_crlf_of_no_lfcr (l : List Char) (h : hasLFCR l = false) :
    ¬ List.IsInfix (crlf ++ crlf) l := by
  intro hinf
  obtain ⟨s, t, heq⟩ := hinf
  have h2 : List.IsInfix [lfChar, crChar] l := by
    refine ⟨s ++ [crChar], lfChar :: t, ?_⟩
    rw [← heq]
    simp [crlf]
  rw [hasLFCR_of_mid_seq l h2] at h
  exact absurd h (by simp)

/-- Every fragment sent by the custom-header loop is an `X-Slowloris` line. -/
lemma loopGo_lines (cfg : SLConfig) (hn : Nat) (ticks : List TickInput) :
    ∀ f ∈ (loopGo cfg hn ticks).2.1, ∃ n ts, f = xHeaderLine n ts := by
  induction ticks generalizing hn with
  | nil => intro f hf; simp [loopGo] at hf
  | cons t rest ih =>
    intro f hf
    cases t with
    | cancel => simp [loopGo] at hf
    | peekOk => simp [loopGo] at hf
    | peekOther => simp [loopGo] at hf
    | peekTimeout wok ts =>
      cases wok with
      | false => simp [loopGo] at hf
      | true =>
        simp only [loopGo, Bool.not_true] at hf
        rw [if_neg (by simp)] at hf
        by_cases hko : (!cfg.keepOpen && decide (10 ≤ hn + 1)) = true
        · rw [if_pos hko] at hf
          simp at hf
          exact ⟨hn + 1, ts, hf⟩
        · rw [if_neg hko] at hf
          simp only [List.mem_cons] at hf
          rcases hf with hf | hf
          · exact ⟨hn + 1, ts, hf⟩
          · exact ih (hn + 1) f hf

/-- Every fragment sent by a drip run is the request line, the Host line,
the User-Agent line, or an `X-Slowloris` line. -/
lemma performSlowloris_lines (cfg : SLConfig) (id : Nat) (pre : PreInputs)
    (ticks : List TickInput) :
    ∀ f ∈ (performSlowloris cfg id pre ticks).2.1,
      f = requestLine id ∨ f = hostLine cfg.target ∨ f = uaLine ∨
        ∃ n ts, f = xHeaderLine n ts := by
  intro f hf
  unfold performSlowloris at hf
  split at hf
  · simp at hf
  · split at hf
    · simp at hf
      exact Or.inl hf
    · split at hf
      · simp at hf
        exact Or.inl hf
      · split at hf
        · simp at hf
          rcases hf with hf | hf
          · exact Or.inl hf
          · exact Or.inr (Or.inl hf)
        · split at hf
          · simp at hf
            rcases hf with hf | hf
            · exact Or.inl hf
            · exact Or.inr (Or.inl hf)
          · simp only [List.mem_cons] at hf
            rcases hf with hf | hf | hf | hf
            · exact Or.inl hf
            · exact Or.inr (Or.inl hf)
            · exact Or.inr (Or.inr (Or.inl hf))
            · exact Or.inr (Or.inr (Or.inr (loopGo_lines cfg 0 ticks f hf)))

/-- C5: every fragment the drip sends is a single non-empty header line
ending in exactly one CRLF (with a CR/LF-free body), and consequently the
header-terminating sequence CRLF CRLF never occurs in the concatenated
byte stream, for every worker id, every configuration whose target address
is CR/LF-free (a dialable address cannot contain CR or LF), and every
input trace. -/
theorem c5_never_sends_terminator (cfg : SLConfig) (id : Nat) (pre : PreInputs)
    (ticks : List TickInput) (hcr : crChar ∉ cfg.target)
    (hlf : lfChar ∉ cfg.target) :
    (∀ f ∈ (performSlowloris cfg id pre ticks).2.1, wellFormedLine f) ∧
      ¬ List.IsInfix (crlf ++ crlf)
          ((performSlowloris cfg id pre ticks).2.1).flatten := by
  have hwf : ∀ f ∈ (performSlowloris cfg id pre ticks).2.1, wellFormedLine f := by
    intro f hf
    rcases performSlowloris_lines cfg id pre ticks f hf with h | h | h | ⟨n, ts, h⟩
    · exact h ▸ requestLine_wellFormed id
    · exact h ▸ hostLine_wellFormed cfg.target hcr hlf
    · exact h ▸ uaLine_wellFormed
    · exact h ▸ xHeaderLine_wellFormed n ts
  exact ⟨hwf, no_double_crlf_of_no_lfcr _ (stream_safe _ hwf).1⟩

/-- Witness: C5 on a concrete run — one worker, the default-style target,
all leading writes succeeding, and one timeout tick. -/
theorem c5_never_sends_terminator_witness :
    ¬ List.IsInfix (crlf ++ crlf)
        ((performSlowloris ⟨"localhost:8080".toList, true⟩ 0
            ⟨true, false, true, false, true⟩
            [TickInput.peekTimeout true 5]).2.1).flatten :=
  (c5_never_sends_terminator ⟨"localhost:8080".toList, true⟩ 0
      ⟨true, false, true, false, true⟩ [TickInput.peekTimeout true 5]
      (by decide) (by decide)).2

/-- C4: branch behaviour of one tick of the header loop, and the worker-level
accounting of a peer-initiated close. With keep-open enabled (the default):
a successful peek stops the drip without a peer-close verdict; a
timeout-class peek error sends exactly one more well-formed header line and
stays in the loop (the run continues as the loop on the remaining trace);
a non-timeout peek error, like a failed write, ends the drip as peer-closed.
A completed connection attempt whose drip ended peer-closed increments
`closedByServer` exactly once and returns `activeConns` to its prior
value. -/
theorem c4_tick_and_close_accounting (cfg : SLConfig) (hko : cfg.keepOpen = true)
    (hn : Nat) (rest : List TickInput) (ts : Nat) (st : SLStats) (id : Nat)
    (pre : PreInputs) (ticks : List TickInput)
    (hpc : (performSlowloris cfg id pre ticks).2.2 = SLOutcome.peerClosed) :
    loopGo cfg hn (TickInput.peekOk :: rest) = (0, [], SLOutcome.notPeerClosed) ∧
    loopGo cfg hn (TickInput.peekTimeout true ts :: rest) =
      ((loopGo cfg (hn + 1) rest).1 + 1,
        xHeaderLine (hn + 1) ts :: (loopGo cfg (hn + 1) rest).2.1,
        (loopGo cfg (hn + 1) rest).2.2) ∧
    wellFormedLine (xHeaderLine (hn + 1) ts) ∧
    loopGo cfg hn (TickInput.peekOther :: rest) = (0, [], SLOutcome.peerClosed) ∧
    loopGo cfg hn (TickInput.peekTimeout false ts :: rest) =
      (0, [], SLOutcome.peerClosed) ∧
    (workerConnAttempt st cfg id true pre ticks).closedByServer =
      st.closedByServer + 1 ∧
    (workerConnAttempt st cfg id true pre ticks).activeConns = st.activeConns := by
  refine ⟨rfl, ?_, xHeaderLine_wellFormed (hn + 1) ts, rfl, ?_, ?_, ?_⟩
  · simp [loopGo, hko]
  · simp [loopGo]
  · simp [workerConnAttempt, hpc]
  · simp [workerConnAttempt, hpc]

/-- Witness: C4 at concrete inputs — keep-open on, one worker, a trace whose
single tick reports a non-timeout peek error, so the drip ends peer-closed. -/
theorem c4_tick_and_close_accounting_witness :
    loopGo ⟨[], true⟩ 0 [TickInput.peekOk] = (0, [], SLOutcome.notPeerClosed) ∧
    (workerConnAttempt ⟨0, 0, 0, 0, 0⟩ ⟨[], true⟩ 7 true
        ⟨true, false, true, false, true⟩ [TickInput.peekOther]).closedByServer = 0 + 1 ∧
    (workerConnAttempt ⟨0, 0, 0, 0, 0⟩ ⟨[], true⟩ 7 true
        ⟨true, false, true, false, true⟩ [TickInput.peekOther]).activeConns = 0 := by
  have h := c4_tick_and_close_accounting ⟨[], true⟩ rfl 0 [] 0 ⟨0, 0, 0, 0, 0⟩ 7
    ⟨true, false, true, false, true⟩ [TickInput.peekOther] rfl
  exact ⟨h.1, h.2.2.2.2.2.1, h.2.2.2.2.2.2⟩

/-- With keep-open disabled and a trace of successful timeout-ticks, the
loop voluntarily stops after the tenth custom header. -/
lemma loopGo_weak_bound (cfg : SLConfig) (hko : cfg.keepOpen = false)
    (ticks : List TickInput)
    (htk : ∀ t ∈ ticks, ∃ ts, t = TickInput.peekTimeout true ts) (hn : Nat)
    (hhn : hn ≤ 9) (hlen : 10 ≤ hn + ticks.length) :
    (loopGo cfg hn ticks).1 = 10 - hn ∧
      (loopGo cfg hn ticks).2.2 = SLOutcome.notPeerClosed := by
  induction ticks generalizing hn with
  | nil => simp at hlen; omega
  | cons t rest ih =>
    obtain ⟨ts, rfl⟩ := htk t (List.mem_cons_self t rest)
    have hrest : ∀ t ∈ rest, ∃ ts, t = TickInput.peekTimeout true ts :=
      fun t ht => htk t (List.mem_cons_of_mem _ ht)
    by_cases h9 : hn = 9
    · subst h9
      simp [loopGo, hko]
    · have hlt : hn + 1 ≤ 9 := by omega
      have hlen' : 10 ≤ hn + 1 + rest.length := by
        simp only [List.length_cons] at hlen
        omega
      have hdec : ¬ (10 ≤ hn + 1) := by omega
      obtain ⟨ih1, ih2⟩ := ih hrest (hn + 1) hlt hlen'
      simp [loopGo, hko, hdec, ih1, ih2]
      omega

/-- C9: keep-open disabled, peer never responds and never closes (every
peek times out, every write succeeds): the drip stops voluntarily after 10
custom header lines — 13 fragments in total with the request line, Host and
User-Agent — with a not-peer-closed verdict, and a completed connection
attempt does not change `closedByServer`. -/
theorem c9_weak_attacker_bound (cfg : SLConfig) (id : Nat) (st : SLStats)
    (ticks : List TickInput) (hko : cfg.keepOpen = false)
    (htk : ∀ t ∈ ticks, ∃ ts, t = TickInput.peekTimeout true ts)
    (hlen : 10 ≤ ticks.length) :
    (performSlowloris cfg id ⟨true, false, true, false, true⟩ ticks).1 = 13 ∧
    (performSlowloris cfg id ⟨true, false, true, false, true⟩ ticks).2.2 =
      SLOutcome.notPeerClosed ∧
    (workerConnAttempt st cfg id true ⟨true, false, true, false, true⟩
        ticks).closedByServer = st.closedByServer := by
  obtain ⟨h1, h2⟩ := loopGo_weak_bound cfg hko ticks htk 0 (by omega) (by omega)
  refine ⟨?_, ?_, ?_⟩
  · simp [performSlowloris, h1]
  · simp [performSlowloris, h2]
  · simp [workerConnAttempt, performSlowloris, h2]

/-- Witness: C9 on ten concrete timeout ticks. -/
theorem c9_weak_attacker_bound_witness :
    (performSlowloris ⟨[], false⟩ 0 ⟨true, false, true, false, true⟩
        (List.replicate 10 (TickInput.peekTimeout true 5))).1 = 13 ∧
    (performSlowloris ⟨[], false⟩ 0 ⟨true, false, true, false, true⟩
        (List.replicate 10 (TickInput.peekTimeout true 5))).2.2 =
      SLOutcome.notPeerClosed ∧
    (workerConnAttempt ⟨0, 0, 0, 0, 0⟩ ⟨[], false⟩ 0 true
        ⟨true, false, true, false, true⟩
        (List.replicate 10 (TickInput.peekTimeout true 5))).closedByServer = 0 :=
  c9_weak_attacker_bound ⟨[], false⟩ 0 ⟨0, 0, 0, 0, 0⟩
    (List.replicate 10 (TickInput.peekTimeout true 5)) rfl
    (fun t ht => ⟨5, List.eq_of_mem_replicate ht⟩) (by simp)

/-- C10: a failed dial changes only the dial-error counter — the full stats
record is otherwise identical — while `totalConns` and `activeConns` are
bumped only on the successful-dial path (and a completed successful attempt
leaves `errors` untouched). -/
theorem c10_dial_failure_frame (st : SLStats) (cfg : SLConfig) (id : Nat)
    (pre : PreInputs) (ticks : List TickInput) :
    workerConnAttempt st cfg id false pre ticks =
      { st with errors := st.errors + 1 } ∧
    (workerConnAttempt st cfg id true pre ticks).totalConns = st.totalConns + 1 ∧
    (workerConnAttempt st cfg id true pre ticks).errors = st.errors := by
  refine ⟨rfl, ?_, ?_⟩ <;>
    · simp only [workerConnAttempt, Bool.not_true, Bool.false_eq_true, if_false]
      split <;> rfl
